import Mathlib

/-!
Verification of the docs-rag chunking and index-build pipeline.

The definitions below are a shallow embedding of `src/main/chunk_docs.py` and
`src/main/build_index.py`.  External collaborators (the langchain splitters,
the OpenAI embedding client, the faiss index library, the file system) are
modelled as parameters or as explicit state; everything the repository's own
code computes is translated directly.
-/

namespace DocsRag

/-- ASCII whitespace as recognised by Python's `\s` regex class and
`str.strip()`: space, tab, newline, carriage return, vertical tab, form feed. -/
def isPyWhitespace (c : Char) : Bool :=
  c = ' ' || c = '\t' || c = '\n' || c = '\r' || c = '\x0b' || c = '\x0c'

/-- Python `str.strip()`: drop leading and trailing whitespace. -/
def pyStrip (s : String) : String :=
  String.mk (((s.data.dropWhile isPyWhitespace).reverse.dropWhile isPyWhitespace).reverse)

/-- `re.sub(r"\s+", " ", s)` scanned left to right: the first character of a
whitespace run becomes one space, the rest of the run is dropped (`inRun`
records whether the previous character was whitespace). -/
def collapseWSAux : List Char → Bool → List Char
  | [], _ => []
  | c :: cs, inRun =>
    if isPyWhitespace c then
      (if inRun then [] else [' ']) ++ collapseWSAux cs true
    else c :: collapseWSAux cs false

/-- `re.sub(r"\s+", " ", s)`: every maximal run of whitespace becomes one space. -/
def collapseWS (l : List Char) : List Char := collapseWSAux l false

/-- `clean_text` from chunk_docs.py: `re.sub(r"\s+", " ", s).strip()`. -/
def clean_text (s : String) : String :=
  pyStrip (String.mk (collapseWS s.data))

/-- The decimal digit character for `n < 10`. -/
def digitChar (n : Nat) : Char := Char.ofNat (48 + n)

/-- Decimal rendering worker: `fuel` only bounds the recursion depth (any
`fuel > n` yields the digits of `n`, most significant first). -/
def natDigitsAux (fuel n : Nat) : List Char :=
  match fuel with
  | 0 => []
  | f + 1 =>
    if n < 10 then [digitChar n]
    else natDigitsAux f (n / 10) ++ [digitChar (n % 10)]

/-- Decimal digit string of a natural number, most significant digit first
(the decimal rendering used by Python's `d` format). -/
def natDigits (n : Nat) : List Char := natDigitsAux (n + 1) n

/-- Python `f"{n:04d}"`: decimal digits of `n`, left-padded with `'0'` to a
minimum width of four characters. -/
def pad4 (n : Nat) : String :=
  String.mk (List.replicate (4 - (natDigits n).length) '0' ++ natDigits n)

/-- The numeric value of a decimal digit string (left fold); used to show that
decimal rendering, padded or not, is injective. -/
def digitsVal (l : List Char) : Nat :=
  l.foldl (fun a c => 10 * a + (c.toNat - 48)) 0

/-- One output of langchain's `MarkdownHeaderTextSplitter`: a body of text plus
the header metadata (`h1`..`h4`) active at that point. -/
structure HeaderDoc where
  h1 : Option String
  h2 : Option String
  h3 : Option String
  h4 : Option String
  page_content : String
  deriving Repr, DecidableEq

/-- The section path built in `chunk_one_file`: the truthy header values in
level order, joined with `" > "`; `None` when no header is truthy (Python's
`if hd.metadata.get(k)` also drops an empty-string header). -/
def sectionOf (hd : HeaderDoc) : Option String :=
  let headers := ([hd.h1, hd.h2, hd.h3, hd.h4].filterMap id).filter (fun s => s ≠ "")
  if headers = [] then none else some (String.intercalate " > " headers)

/-- A chunk record as written to `data/chunks.jsonl`.  The Python dict field
`section` is spelled `sectionPath` because `section` is a Lean keyword. -/
structure Chunk where
  id : String
  rel : String
  source : Option String
  sectionPath : Option String
  chunk_index : Nat
  text : String
  deriving Repr, DecidableEq

/-- A markdown file on disk as seen through `frontmatter.load`: the content
with front matter removed, plus the front-matter `source` value if present
(`read_md_clean` returns exactly this pair). -/
structure MdFile where
  content : String
  frontSource : Option String
  deriving Repr, DecidableEq

/-- One parsed manifest line: `rel = entry["rel"]`, `src = entry.get("source_url")`. -/
structure Entry where
  rel : String
  source_url : Option String
  deriving Repr, DecidableEq

/-- The emission loop of `chunk_one_file`: walk the (section, piece) pairs,
clean each piece, drop the empty ones, and emit a record — the counter
`chunk_idx` advances only on emission.  Note the record's `source` field is
the manifest `source_url` argument; the front-matter source is not consulted
here, exactly as in the Python source. -/
def emitChunks (rel : String) (source_url : Option String) :
    List (Option String × String) → Nat → List Chunk
  | [], _ => []
  | (sec, piece) :: rest, chunk_idx =>
    let body := clean_text piece
    if body = "" then emitChunks rel source_url rest chunk_idx
    else
      { id := rel ++ "::" ++ pad4 chunk_idx
        rel := rel
        source := source_url
        sectionPath := sec
        chunk_index := chunk_idx
        text := body } :: emitChunks rel source_url rest (chunk_idx + 1)

/-- The candidate pieces of one file, in traversal order: for each header
segment, the length-split pieces of its content, each paired with the
segment's section path. -/
def piecesOf (headerSplit : String → List HeaderDoc)
    (charSplit : String → List String) (content : String) :
    List (Option String × String) :=
  (headerSplit content).flatMap
    (fun hd => (charSplit hd.page_content).map (fun p => (sectionOf hd, p)))

/-- `chunk_one_file rel source_url`, with the two langchain splitters passed in
and the file system read modelled by an `Option MdFile` (`none` = the path does
not exist, in which case the generator warns and yields nothing). -/
def chunkOneFile (headerSplit : String → List HeaderDoc)
    (charSplit : String → List String)
    (rel : String) (source_url : Option String) (file : Option MdFile) :
    List Chunk :=
  match file with
  | none => []
  | some f => emitChunks rel source_url (piecesOf headerSplit charSplit f.content) 0

/-- All records produced by `main` of chunk_docs.py over a manifest, in write
order: the concatenation of each entry's `chunk_one_file` output.  `files`
models the raw-docs directory (`rel ↦` the markdown file at that path). -/
def allChunks (headerSplit : String → List HeaderDoc)
    (charSplit : String → List String)
    (files : String → Option MdFile) (entries : List Entry) : List Chunk :=
  entries.flatMap
    (fun e => chunkOneFile headerSplit charSplit e.rel e.source_url (files e.rel))

/-- The file-system state seen by chunk_docs.py: the contents at the final
chunk-store path and at the temporary path (`none` = no file). -/
structure ChunkFS where
  chunkStore : Option (List Chunk)
  tmpStore : Option (List Chunk)
  deriving Repr, DecidableEq

/-- The manifest loop of `main`: for each entry, run the segmenter (which, as
an effectful call, may raise) and append its records to the temporary file.
On the first raise the loop stops with the exception and the file system as it
stands. -/
def writeLoopFS (seg : Entry → Except String (List Chunk)) :
    List Entry → ChunkFS → ChunkFS × Option String
  | [], fs => (fs, none)
  | e :: rest, fs =>
    match seg e with
    | .error msg => (fs, some msg)
    | .ok recs =>
      writeLoopFS seg rest
        { fs with tmpStore := some ((fs.tmpStore.getD []) ++ recs) }

/-- `main` of chunk_docs.py: abort if the manifest is absent; otherwise open
the temporary file, drain every entry into it, and only if no entry raised
rename the temporary file onto the final chunk-store path. -/
def chunkMain (seg : Entry → Except String (List Chunk))
    (manifest : Option (List Entry)) (fs : ChunkFS) : ChunkFS × Option String :=
  match manifest with
  | none => (fs, some "manifest.jsonl not found. Run fetch first.")
  | some entries =>
    match writeLoopFS seg entries { fs with tmpStore := some [] } with
    | (fs2, none) => ({ fs2 with chunkStore := fs2.tmpStore, tmpStore := none }, none)
    | (fs2, some msg) => (fs2, some msg)

/-- A dense embedding vector as handled by build_index.py.  The numeric values
are opaque to the pipeline's control flow, so exact rationals stand in for the
float32 entries. -/
abbrev Vec := List ℚ

/-- The embedding-input construction of build_index.py:
`prefix = (rec.get("section") or "").strip()` and then
`(prefix + "\n\n" + body) if prefix else body`. -/
def embedInput (sec : Option String) (body : String) : String :=
  let pfx := pyStrip (sec.getD "")
  if pfx = "" then body else pfx ++ "\n\n" ++ body

/-- Batch size of the Embedding Batcher. -/
def BATCH : Nat := 128

/-- The batching loop `for i in range(0, len(texts), BATCH): texts[i:i + BATCH]`:
successive slices of `BATCH` texts, the final slice possibly shorter. -/
def toBatches (ts : List String) : List (List String) :=
  if ts = [] then [] else ts.take BATCH :: toBatches (ts.drop BATCH)
termination_by ts.length
decreasing_by
  rename_i h
  have : ts.length ≠ 0 := fun hz => h (List.eq_nil_of_length_eq_zero hz)
  simp only [List.length_drop, BATCH]
  omega

/-- `np.vstack`: concatenates the batch matrices row-wise; on an empty list of
arrays numpy raises `ValueError: need at least one array to concatenate`. -/
def vstack (mats : List (List Vec)) : Except String (List Vec) :=
  match mats with
  | [] => .error "need at least one array to concatenate"
  | m :: ms => .ok ((m :: ms).flatten)

/-- The embedding model identifier of build_index.py. -/
def EMBED_MODEL : String := "text-embedding-3-small"

/-- The file-system state seen by build_index.py: the persisted faiss index
(its vectors, in insertion order) and the pickled metadata file (the ordered
chunk-id list and the model identifier). -/
structure IndexFS where
  indexFile : Option (List Vec)
  metaFile : Option (List String × String)
  deriving Repr, DecidableEq

/-- `main` of build_index.py.  `embedTexts` models one `embed_texts` call (the
OpenAI client returning one matrix per batch) and `faissNormalize` models the
in-place `faiss.normalize_L2`; both are external collaborators.  The function
aborts if the chunk store is absent, reads ids and embedding inputs in file
order, embeds batch by batch, stacks, normalizes, adds every row to a fresh
inner-product index, and persists index and metadata.  It performs no
comparison between the id count and the vector count. -/
def buildIndexMain (embedTexts : List String → List Vec)
    (faissNormalize : List Vec → List Vec)
    (chunkStore : Option (List Chunk)) (fs : IndexFS) :
    IndexFS × Option String :=
  match chunkStore with
  | none => (fs, some "Run chunk_docs.py first: data/chunks.jsonl not found")
  | some recs =>
    let ids := recs.map Chunk.id
    let texts := recs.map (fun r => embedInput r.sectionPath r.text)
    let all_vecs := (toBatches texts).map embedTexts
    match vstack all_vecs with
    | .error e => (fs, some e)
    | .ok X =>
      let Xn := faissNormalize X
      ({ indexFile := some Xn, metaFile := some (ids, EMBED_MODEL) }, none)

/-- Sum of squared entries of a row (`fvec_norm_L2sqr` in faiss). -/
def sumSq (v : List ℝ) : ℝ := (v.map (fun x => x * x)).sum

/-- Euclidean norm of a row. -/
noncomputable def euclidNorm (v : List ℝ) : ℝ := Real.sqrt (sumSq v)

/-- One row of faiss's `fvec_renorm_L2` (the kernel of `faiss.normalize_L2`),
idealized over ℝ: if the squared norm is positive, scale the row by the
inverse square root of the squared norm; otherwise leave the row untouched. -/
noncomputable def normalizeRow (v : List ℝ) : List ℝ :=
  let nr := sumSq v
  if 0 < nr then v.map (fun x => x * (1 / Real.sqrt nr)) else v

/-- `faiss.normalize_L2` applied to a matrix: renormalize each row. -/
noncomputable def normalizeL2 (X : List (List ℝ)) : List (List ℝ) :=
  X.map normalizeRow

/-! ## Concrete instances used by witnesses and counterexamples -/

/-- A concrete header splitter: one segment carrying an `h1` of `"T"`. -/
def hsW : String → List HeaderDoc := fun s => [⟨some "T", none, none, none, s⟩]

/-- A concrete length splitter: the identity split. -/
def csW : String → List String := fun s => [s]

/-- A concrete raw-docs directory with two markdown files. -/
def filesW : String → Option MdFile := fun r =>
  if r = "a.md" then some ⟨"hello", none⟩ else some ⟨"world", some "fm"⟩

/-- A concrete two-entry manifest. -/
def entriesW : List Entry := [⟨"a.md", some "u"⟩, ⟨"b.md", none⟩]

/-- A concrete segmenter that raises on every document but `a.md`. -/
def segW : Entry → Except String (List Chunk) := fun e =>
  if e.rel = "a.md"
  then .ok [⟨"a.md::0000", "a.md", some "u", none, 0, "hello"⟩]
  else .error "boom"

/-- A concrete previously good chunk-store state. -/
def fsW0 : ChunkFS := ⟨some [⟨"old.md::0000", "old.md", none, none, 0, "old"⟩], none⟩

/-- A misbehaving embedding service: one spurious extra vector per batch. -/
def embBadW : List String → List Vec := fun b => b.map (fun _ => ([0] : Vec)) ++ [[0]]

/-- A concrete chunk record as read back from the chunk store. -/
def chunkW : Chunk := ⟨"a.md::0000", "a.md", some "u", none, 0, "hello"⟩

/-- An empty vector-store directory. -/
def ifsW : IndexFS := ⟨none, none⟩

/-! ## Helper lemmas -/

theorem digitChar_toNat {n : Nat} (h : n < 10) : (digitChar n).toNat = 48 + n := by
  interval_cases n <;> decide

theorem digitChar_ne_colon {n : Nat} (h : n < 10) : digitChar n ≠ ':' := by
  interval_cases n <;> decide

theorem natDigitsAux_fuel {n : Nat} :
    ∀ (f1 f2 : Nat), n < f1 → n < f2 → natDigitsAux f1 n = natDigitsAux f2 n := by
  induction n using Nat.strong_induction_on with
  | _ n ih =>
    intro f1 f2 h1 h2
    match f1, f2 with
    | g1 + 1, g2 + 1 =>
      rw [natDigitsAux, natDigitsAux]
      by_cases hn : n < 10
      · rw [if_pos hn, if_pos hn]
      · rw [if_neg hn, if_neg hn]
        have hdiv : n / 10 < n := Nat.div_lt_self (by omega) (by norm_num)
        rw [ih (n / 10) hdiv g1 g2 (by omega) (by omega)]

theorem natDigits_unfold (n : Nat) :
    natDigits n = if n < 10 then [digitChar n]
      else natDigits (n / 10) ++ [digitChar (n % 10)] := by
  rw [natDigits, natDigitsAux]
  by_cases hn : n < 10
  · rw [if_pos hn, if_pos hn]
  · rw [if_neg hn, if_neg hn, natDigits]
    have hdiv : n / 10 < n := Nat.div_lt_self (by omega) (by norm_num)
    rw [natDigitsAux_fuel n (n / 10 + 1) (by omega) (by omega)]

theorem natDigits_ne_colon (n : Nat) : ∀ c ∈ natDigits n, c ≠ ':' := by
  induction n using Nat.strong_induction_on with
  | _ n ih =>
    intro c hc
    rw [natDigits_unfold] at hc
    by_cases hn : n < 10
    · rw [if_pos hn] at hc
      simp only [List.mem_singleton] at hc
      exact hc ▸ digitChar_ne_colon hn
    · rw [if_neg hn] at hc
      rcases List.mem_append.1 hc with h1 | h2
      · exact ih (n / 10) (Nat.div_lt_self (by omega) (by norm_num)) c h1
      · simp only [List.mem_singleton] at h2
        exact h2 ▸ digitChar_ne_colon (Nat.mod_lt _ (by omega))

theorem digitsVal_natDigits (n : Nat) : digitsVal (natDigits n) = n := by
  induction n using Nat.strong_induction_on with
  | _ n ih =>
    rw [natDigits_unfold]
    by_cases hn : n < 10
    · rw [if_pos hn]
      simp [digitsVal, digitChar_toNat hn]
    · rw [if_neg hn]
      unfold digitsVal at ih ⊢
      rw [List.foldl_append, ih (n / 10) (Nat.div_lt_self (by omega) (by norm_num))]
      simp only [List.foldl_cons, List.foldl_nil]
      rw [digitChar_toNat (Nat.mod_lt _ (by omega))]
      omega

theorem digitsVal_replicate_zeros (m : Nat) (l : List Char) :
    digitsVal (List.replicate m '0' ++ l) = digitsVal l := by
  induction m with
  | zero => simp
  | succ k ih =>
    rw [List.replicate_succ, List.cons_append]
    unfold digitsVal at ih ⊢
    simpa using ih

theorem digitsVal_pad4 (n : Nat) : digitsVal (pad4 n).data = n := by
  show digitsVal (List.replicate _ '0' ++ natDigits n) = n
  rw [digitsVal_replicate_zeros, digitsVal_natDigits]

theorem pad4_injective : Function.Injective pad4 := by
  intro a b h
  have := congrArg (fun s => digitsVal (String.data s)) h
  simpa [digitsVal_pad4] using this

theorem pad4_ne_colon (n : Nat) : ∀ c ∈ (pad4 n).data, c ≠ ':' := by
  intro c hc
  rcases List.mem_append.1 hc with h1 | h2
  · rw [List.eq_of_mem_replicate h1]; decide
  · exact natDigits_ne_colon n c h2

theorem append_colon_inj {a1 a2 l1 l2 : List Char}
    (h1 : ':' ∉ a1) (h2 : ':' ∉ a2) :
    a1 ++ ':' :: l1 = a2 ++ ':' :: l2 → a1 = a2 ∧ l1 = l2 := by
  induction a1 generalizing a2 with
  | nil =>
    intro h
    cases a2 with
    | nil => simpa using h
    | cons c t =>
      simp only [List.nil_append, List.cons_append, List.cons.injEq] at h
      exact absurd (h.1 ▸ List.mem_cons_self c t) h2
  | cons c t ih =>
    intro h
    cases a2 with
    | nil =>
      simp only [List.nil_append, List.cons_append, List.cons.injEq] at h
      exact absurd (h.1 ▸ List.mem_cons_self c t) h1
    | cons c' t' =>
      simp only [List.cons_append, List.cons.injEq] at h
      have ht := ih (fun hm => h1 (List.mem_cons_of_mem c hm))
        (fun hm => h2 (h.1 ▸ List.mem_cons_of_mem c' hm)) h.2
      exact ⟨by rw [h.1, ht.1], ht.2⟩

theorem chunkId_inj {r1 r2 : String} {n1 n2 : Nat}
    (h : r1 ++ "::" ++ pad4 n1 = r2 ++ "::" ++ pad4 n2) : r1 = r2 ∧ n1 = n2 := by
  have hcolon : ("::" : String).data = [':', ':'] := rfl
  have hd := congrArg String.data h
  rw [String.data_append, String.data_append, String.data_append, String.data_append,
    hcolon] at hd
  have hrev := congrArg List.reverse hd
  simp only [List.reverse_append, List.reverse_cons, List.reverse_nil, List.nil_append,
    List.append_assoc, List.cons_append] at hrev
  have hnc1 : ':' ∉ (pad4 n1).data.reverse := by
    intro hm
    exact pad4_ne_colon n1 _ (List.mem_reverse.1 hm) rfl
  have hnc2 : ':' ∉ (pad4 n2).data.reverse := by
    intro hm
    exact pad4_ne_colon n2 _ (List.mem_reverse.1 hm) rfl
  have hsplit := append_colon_inj hnc1 hnc2 hrev
  have hpad : pad4 n1 = pad4 n2 := by
    have := congrArg List.reverse hsplit.1
    simp only [List.reverse_reverse] at this
    exact String.ext this
  have hrel : r1 = r2 := by
    have h2 := hsplit.2
    simp only [List.cons.injEq, true_and] at h2
    have := congrArg List.reverse h2
    simp only [List.reverse_reverse] at this
    exact String.ext this
  exact ⟨hrel, pad4_injective hpad⟩

theorem emitChunks_fields (rel : String) (src : Option String) :
    ∀ (ps : List (Option String × String)) (idx : Nat),
      ∀ c ∈ emitChunks rel src ps idx,
        c.id = rel ++ "::" ++ pad4 c.chunk_index ∧ c.rel = rel ∧
          c.source = src ∧ c.text ≠ "" := by
  intro ps
  induction ps with
  | nil => intro idx c hc; simp [emitChunks] at hc
  | cons p rest ih =>
    obtain ⟨sec, piece⟩ := p
    intro idx c hc
    rw [emitChunks] at hc
    by_cases h : clean_text piece = ""
    · rw [if_pos h] at hc
      exact ih idx c hc
    · rw [if_neg h] at hc
      rcases List.mem_cons.1 hc with rfl | hc'

      · exact ⟨rfl, rfl, rfl, h⟩
      · exact ih (idx + 1) c hc'

theorem emitChunks_index_map (rel : String) (src : Option String) :
    ∀ (ps : List (Option String × String)) (idx : Nat),
      (emitChunks rel src ps idx).map Chunk.chunk_index =
        List.range' idx (emitChunks rel src ps idx).length := by
  intro ps
  induction ps with
  | nil => intro idx; simp [emitChunks]
  | cons p rest ih =>
    obtain ⟨sec, piece⟩ := p
    intro idx
    rw [emitChunks]
    by_cases h : clean_text piece = ""
    · rw [if_pos h]; exact ih idx
    · rw [if_neg h]
      simp only [List.map_cons, List.length_cons, List.range'_succ]
      rw [ih (idx + 1)]

theorem emitChunks_texts (rel : String) (src : Option String) :
    ∀ (ps : List (Option String × String)) (idx : Nat),
      (emitChunks rel src ps idx).map Chunk.text =
        (ps.map (fun p => clean_text p.2)).filter (fun t => t ≠ "") := by
  intro ps
  induction ps with
  | nil => intro idx; simp [emitChunks]
  | cons p rest ih =>
    obtain ⟨sec, piece⟩ := p
    intro idx
    rw [emitChunks]
    by_cases h : clean_text piece = ""
    · rw [if_pos h]
      simp only [List.map_cons, List.filter_cons]
      rw [ih idx]
      simp [h]
    · rw [if_neg h]
      simp only [List.map_cons, List.filter_cons]
      have : (decide (clean_text piece ≠ "")) = true := by simpa using h
      rw [this]
      simp only [List.map_cons]
      rw [ih (idx + 1)]
      simp

theorem emitChunks_ids_nodup (rel : String) (src : Option String)
    (ps : List (Option String × String)) (idx : Nat) :
    ((emitChunks rel src ps idx).map Chunk.id).Nodup := by
  have hmap : (emitChunks rel src ps idx).map Chunk.id =
      ((emitChunks rel src ps idx).map Chunk.chunk_index).map
        (fun i => rel ++ "::" ++ pad4 i) := by
    rw [List.map_map]
    exact List.map_congr_left
      (fun c hc => (emitChunks_fields rel src ps idx c hc).1)
  rw [hmap, emitChunks_index_map]
  exact List.Nodup.map (fun i j hij => (chunkId_inj hij).2) (List.nodup_range' _ _)

theorem chunkOneFile_fields (hs : String → List HeaderDoc)
    (cs : String → List String) (rel : String) (src : Option String)
    (file : Option MdFile) :
    ∀ c ∈ chunkOneFile hs cs rel src file,
      c.id = rel ++ "::" ++ pad4 c.chunk_index ∧ c.rel = rel ∧
        c.source = src ∧ c.text ≠ "" := by
  cases file with
  | none => intro c hc; simp [chunkOneFile] at hc
  | some f => exact fun c hc => emitChunks_fields rel src _ 0 c hc

theorem chunkOneFile_ids_nodup (hs : String → List HeaderDoc)
    (cs : String → List String) (rel : String) (src : Option String)
    (file : Option MdFile) :
    ((chunkOneFile hs cs rel src file).map Chunk.id).Nodup := by
  cases file with
  | none => simp [chunkOneFile]
  | some f => exact emitChunks_ids_nodup rel src _ 0

theorem writeLoopFS_chunkStore (seg : Entry → Except String (List Chunk)) :
    ∀ (entries : List Entry) (fs : ChunkFS),
      ((writeLoopFS seg entries fs).1).chunkStore = fs.chunkStore := by
  intro entries
  induction entries with
  | nil => intro fs; rfl
  | cons e rest ih =>
    intro fs
    rw [writeLoopFS]
    cases seg e with
    | error msg => rfl
    | ok recs => exact ih _

theorem writeLoopFS_success (seg : Entry → Except String (List Chunk)) :
    ∀ (entries : List Entry) (fs : ChunkFS) (init : List Chunk),
      fs.tmpStore = some init →
      (writeLoopFS seg entries fs).2 = none →
      ((writeLoopFS seg entries fs).1).tmpStore =
        some (init ++ entries.flatMap (fun e => ((seg e).toOption.getD []))) := by
  intro entries
  induction entries with
  | nil =>
    intro fs init hinit _
    simpa [writeLoopFS] using hinit
  | cons e rest ih =>
    intro fs init hinit hok
    rw [writeLoopFS] at hok ⊢
    cases hseg : seg e with
    | error msg => rw [hseg] at hok; exact absurd hok (by simp)
    | ok recs =>
      rw [hseg] at hok
      have := ih { fs with tmpStore := some ((fs.tmpStore.getD []) ++ recs) }
        (init ++ recs) (by simp [hinit]) hok
      rw [this]
      simp [List.flatMap_cons, hseg, List.append_assoc, Except.toOption]

theorem toBatches_eq_nil_iff (ts : List String) : toBatches ts = [] ↔ ts = [] := by
  constructor
  · intro h
    by_contra hne
    rw [toBatches, if_neg hne] at h
    exact List.cons_ne_nil _ _ h
  · intro h
    rw [toBatches, if_pos h]

theorem toBatches_flatten (ts : List String) : (toBatches ts).flatten = ts := by
  induction ts using toBatches.induct with
  | case1 => rw [toBatches]; simp
  | case2 ts h ih =>
    rw [toBatches, if_neg h]
    simp only [List.flatten_cons, ih]
    exact List.take_append_drop _ _

theorem toBatches_mem_length (ts : List String) :
    ∀ b ∈ toBatches ts, 0 < b.length ∧ b.length ≤ BATCH := by
  induction ts using toBatches.induct with
  | case1 => rw [toBatches]; intro b hb; simp at hb
  | case2 ts h ih =>
    rw [toBatches, if_neg h]
    intro b hb
    rcases List.mem_cons.1 hb with rfl | hb'
    · constructor
      · simp only [List.length_take]
        have : 0 < ts.length := List.length_pos.2 h
        have hB : 0 < BATCH := by norm_num [BATCH]
        omega
      · simp only [List.length_take]
        omega
    · exact ih b hb'

theorem toBatches_dropLast_length (ts : List String) :
    ∀ b ∈ (toBatches ts).dropLast, b.length = BATCH := by
  induction ts using toBatches.induct with
  | case1 => rw [toBatches]; intro b hb; simp at hb
  | case2 ts h ih =>
    rw [toBatches, if_neg h]
    intro b hb
    by_cases hrest : toBatches (ts.drop BATCH) = []
    · rw [hrest] at hb
      simp at hb
    · rw [List.dropLast_cons_of_ne_nil hrest] at hb
      rcases List.mem_cons.1 hb with rfl | hb'
      · have hdrop : ts.drop BATCH ≠ [] := by
          intro hd
          exact hrest ((toBatches_eq_nil_iff _).2 hd)
        have : BATCH < ts.length := by
          by_contra hle
          exact hdrop (List.drop_eq_nil_of_le (by omega))
        simp only [List.length_take]
        omega
      · exact ih b hb'

theorem toBatches_small (ts : List String) (h : ts ≠ []) (hle : ts.length ≤ BATCH) :
    toBatches ts = [ts] := by
  rw [toBatches, if_neg h, List.take_of_length_le hle, List.drop_eq_nil_of_le hle]
  rw [toBatches]
  simp

theorem sumSq_nonneg (v : List ℝ) : 0 ≤ sumSq v := by
  apply List.sum_nonneg
  intro x hx
  obtain ⟨y, _, rfl⟩ := List.mem_map.1 hx
  exact mul_self_nonneg y

theorem sumSq_map_mul (v : List ℝ) (c : ℝ) :
    sumSq (v.map (fun x => x * c)) = sumSq v * (c * c) := by
  induction v with
  | nil => simp [sumSq]
  | cons x t ih =>
    simp only [List.map_cons, sumSq, List.sum_cons] at ih ⊢
    rw [ih]
    ring

/-! ## Claim theorems -/

/-- **C1.** For every manifest entry, every chunk emitted for that document has
id equal to the document's relative path, the literal `"::"`, and the
zero-padded four-digit rendering of its `chunk_index`; and across a corpus
(a manifest listing each document's relative path once) all emitted chunk ids
are pairwise distinct. -/
theorem c1_chunk_id_format_and_unique (hs : String → List HeaderDoc)
    (cs : String → List String) (files : String → Option MdFile)
    (entries : List Entry) (hnd : (entries.map Entry.rel).Nodup) :
    (∀ e ∈ entries, ∀ c ∈ chunkOneFile hs cs e.rel e.source_url (files e.rel),
        c.id = e.rel ++ "::" ++ pad4 c.chunk_index) ∧
    ((allChunks hs cs files entries).map Chunk.id).Nodup := by
  refine ⟨fun e _ c hc =>
    (chunkOneFile_fields hs cs e.rel e.source_url (files e.rel) c hc).1, ?_⟩
  rw [allChunks, List.map_flatMap, List.nodup_flatMap]
  refine ⟨fun e _ => chunkOneFile_ids_nodup hs cs e.rel e.source_url (files e.rel), ?_⟩
  have hp : entries.Pairwise (fun e1 e2 => e1.rel ≠ e2.rel) := List.pairwise_map.1 hnd
  refine hp.imp ?_
  intro e1 e2 hne a ha1 ha2
  obtain ⟨c1, hc1, rfl⟩ := List.mem_map.1 ha1
  obtain ⟨c2, hc2, hid⟩ := List.mem_map.1 ha2
  have f1 := (chunkOneFile_fields hs cs e1.rel e1.source_url (files e1.rel) c1 hc1).1
  have f2 := (chunkOneFile_fields hs cs e2.rel e2.source_url (files e2.rel) c2 hc2).1
  exact hne (chunkId_inj (f1.symm.trans (hid.symm.trans f2))).1

/-- Witness for C1: a concrete two-document corpus with distinct relative
paths, instantiating the theorem. -/
theorem c1_chunk_id_format_and_unique_witness :
    ((entriesW.map Entry.rel).Nodup) ∧
    ((∀ e ∈ entriesW, ∀ c ∈ chunkOneFile hsW csW e.rel e.source_url (filesW e.rel),
        c.id = e.rel ++ "::" ++ pad4 c.chunk_index) ∧
      ((allChunks hsW csW filesW entriesW).map Chunk.id).Nodup) :=
  ⟨by decide, c1_chunk_id_format_and_unique hsW csW filesW entriesW (by decide)⟩

/-- **C2.** For a document processed by the Segmenter, every candidate piece
whose normalized text is empty is dropped (the emitted texts are exactly the
non-empty cleaned pieces, in order), every emitted chunk has non-empty text,
and the emitted `chunk_index` values are the contiguous sequence
`0, 1, 2, …` with no gaps. -/
theorem c2_contiguous_indices_nonempty_text (hs : String → List HeaderDoc)
    (cs : String → List String) (rel : String) (src : Option String) (f : MdFile) :
    (∀ c ∈ chunkOneFile hs cs rel src (some f), c.text ≠ "") ∧
    (chunkOneFile hs cs rel src (some f)).map Chunk.chunk_index =
      List.range (chunkOneFile hs cs rel src (some f)).length ∧
    (chunkOneFile hs cs rel src (some f)).map Chunk.text =
      ((piecesOf hs cs f.content).map (fun p => clean_text p.2)).filter
        (fun t => t ≠ "") := by
  refine ⟨fun c hc => (chunkOneFile_fields hs cs rel src (some f) c hc).2.2.2, ?_, ?_⟩
  · rw [List.range_eq_range']
    exact emitChunks_index_map rel src _ 0
  · exact emitChunks_texts rel src _ 0

/-- Witness for C2 at a concrete one-piece document. -/
theorem c2_contiguous_indices_nonempty_text_witness :
    (∀ c ∈ chunkOneFile hsW csW "a.md" (some "u") (some ⟨"hello", none⟩),
        c.text ≠ "") ∧
    (chunkOneFile hsW csW "a.md" (some "u") (some ⟨"hello", none⟩)).map
        Chunk.chunk_index =
      List.range (chunkOneFile hsW csW "a.md" (some "u")
        (some ⟨"hello", none⟩)).length ∧
    (chunkOneFile hsW csW "a.md" (some "u") (some ⟨"hello", none⟩)).map Chunk.text =
      ((piecesOf hsW csW "hello").map (fun p => clean_text p.2)).filter
        (fun t => t ≠ "") :=
  c2_contiguous_indices_nonempty_text hsW csW "a.md" (some "u") ⟨"hello", none⟩

/-- **C3.** The code does not honour the claimed front-matter override: a
document whose front matter carries `source = "https://front-matter.example"`
still yields a chunk whose `source` is the manifest value
`"https://manifest.example"`.  (`read_md_clean` returns the front-matter
source but `chunk_one_file` never uses it — see `chunkOneFile_fields` for the
general statement that `source` always equals the manifest `source_url`.) -/
theorem c3_front_matter_source_ignored :
    (chunkOneFile hsW csW "b.md" (some "https://manifest.example")
        (some ⟨"world", some "https://front-matter.example"⟩)).map Chunk.source =
      [some "https://manifest.example"] ∧
    (some "https://manifest.example" : Option String) ≠
      some "https://front-matter.example" := by
  exact ⟨by decide, by decide⟩

/-- **C4.** The chunk-store write is atomic at whole-run granularity: if any
manifest entry's processing raises, the chunk store at the final path is
exactly what it was before the run; if every entry succeeds, the temporary
file — holding the concatenation of every entry's records, in manifest
order — is renamed onto the final path. -/
theorem c4_atomic_chunk_store_write (seg : Entry → Except String (List Chunk))
    (entries : List Entry) (fs : ChunkFS) :
    (∀ msg, (chunkMain seg (some entries) fs).2 = some msg →
      ((chunkMain seg (some entries) fs).1).chunkStore = fs.chunkStore) ∧
    ((chunkMain seg (some entries) fs).2 = none →
      ((chunkMain seg (some entries) fs).1).chunkStore =
          some (entries.flatMap (fun e => ((seg e).toOption.getD []))) ∧
        ((chunkMain seg (some entries) fs).1).tmpStore = none) := by
  rw [chunkMain]
  rcases hres : writeLoopFS seg entries { fs with tmpStore := some [] } with ⟨fs2, r⟩
  have hstore : fs2.chunkStore = fs.chunkStore := by
    have := writeLoopFS_chunkStore seg entries { fs with tmpStore := some [] }
    rw [hres] at this
    exact this
  cases r with
  | none =>
    refine ⟨fun msg hmsg => by simp at hmsg, fun _ => ?_⟩
    have := writeLoopFS_success seg entries { fs with tmpStore := some [] } [] rfl
      (by rw [hres])
    rw [hres] at this
    simpa using this
  | some msg' =>
    refine ⟨fun msg _ => hstore, fun hnone => by simp at hnone⟩

/-- Witness for C4: on a concrete manifest where the second entry raises, the
run reports the error and the previously good chunk store is untouched; on the
one-entry prefix that succeeds, the full record list lands at the final path. -/
theorem c4_atomic_chunk_store_write_witness :
    ((chunkMain segW (some entriesW) fsW0).2 = some "boom" ∧
      (chunkMain segW (some entriesW) fsW0).1.chunkStore = fsW0.chunkStore) ∧
    ((chunkMain segW (some [⟨"a.md", some "u"⟩]) fsW0).2 = none ∧
      (chunkMain segW (some [⟨"a.md", some "u"⟩]) fsW0).1.chunkStore =
        some [⟨"a.md::0000", "a.md", some "u", none, 0, "hello"⟩] ∧
      (chunkMain segW (some [⟨"a.md", some "u"⟩]) fsW0).1.tmpStore = none) := by
  constructor
  · exact ⟨by decide,
      (c4_atomic_chunk_store_write segW entriesW fsW0).1 "boom" (by decide)⟩
  · refine ⟨by decide, ?_, ?_⟩
    · have := (c4_atomic_chunk_store_write segW [⟨"a.md", some "u"⟩] fsW0).2 (by decide)
      rw [this.1]
      decide
    · exact ((c4_atomic_chunk_store_write segW [⟨"a.md", some "u"⟩] fsW0).2 (by decide)).2

/-- C5 counterexample: for a chunk whose section path is `" A "` (present,
non-degenerate once stripped) the embedding input is the *stripped* section
joined with the text, not the section as stored, so the claim as stated fails
at this record. -/
theorem c5_embed_input_counterexample :
    embedInput (some " A ") "b" ≠ " A " ++ "\n\n" ++ "b" ∧
    embedInput (some " A ") "b" = "A" ++ "\n\n" ++ "b" := by
  constructor
  · decide
  · decide

/-- **C5 (amended).** For every chunk record read from the chunk store, the
text submitted for embedding equals the whitespace-stripped section path, a
double newline, and the chunk's text when the stripped section is non-empty,
and equals the chunk's text alone when the section is absent or strips to the
empty string. -/
theorem c5_embed_input_stripped_section (recs : List Chunk) :
    recs.map (fun r => embedInput r.sectionPath r.text) =
      recs.map (fun r =>
        match r.sectionPath with
        | none => r.text
        | some s => if pyStrip s = "" then r.text else pyStrip s ++ "\n\n" ++ r.text) := by
  refine List.map_congr_left ?_
  intro r _
  rcases hs : r.sectionPath with - | s
  · have hempty : pyStrip "" = "" := rfl
    rw [embedInput]
    simp [hempty]
  · rw [embedInput]
    by_cases h : pyStrip s = ""
    · simp [h]
    · simp [h]

/-- **C6.** For every non-empty list of chunk texts, the batching loop
partitions it into consecutive batches of exactly `BATCH` (= 128) texts, the
final batch possibly smaller but never empty; concatenating the batches gives
back exactly the original texts in order; and when the embedding service
returns one vector per input in request order, the stacked matrix is exactly
one row per chunk, in chunk-store read order. -/
theorem c6_batching (emb : String → Vec) (texts : List String) (h : texts ≠ []) :
    (toBatches texts).flatten = texts ∧
    (∀ b ∈ toBatches texts, 0 < b.length ∧ b.length ≤ BATCH) ∧
    (∀ b ∈ (toBatches texts).dropLast, b.length = BATCH) ∧
    vstack ((toBatches texts).map (fun b => b.map emb)) = .ok (texts.map emb) := by
  refine ⟨toBatches_flatten texts, toBatches_mem_length texts,
    toBatches_dropLast_length texts, ?_⟩
  have hne : toBatches texts ≠ [] := fun hnil => h ((toBatches_eq_nil_iff texts).1 hnil)
  rcases hb : toBatches texts with - | ⟨b, bs⟩
  · exact absurd hb hne
  · have : ((b :: bs).map (fun c => c.map emb)).flatten = texts.map emb := by
      rw [← List.map_flatten, ← hb, toBatches_flatten]
    simp only [List.map_cons] at this ⊢
    rw [vstack, this]

/-- Witness for C6 at a concrete two-text corpus. -/
theorem c6_batching_witness :
    (["hello", "world"] : List String) ≠ [] ∧
    ((toBatches ["hello", "world"]).flatten = ["hello", "world"] ∧
      (∀ b ∈ toBatches ["hello", "world"], 0 < b.length ∧ b.length ≤ BATCH) ∧
      (∀ b ∈ (toBatches ["hello", "world"]).dropLast, b.length = BATCH) ∧
      vstack ((toBatches ["hello", "world"]).map
          (fun b => b.map (fun _ => ([1] : Vec)))) =
        .ok (["hello", "world"].map (fun _ => ([1] : Vec)))) :=
  ⟨by decide, c6_batching (fun _ => ([1] : Vec)) ["hello", "world"] (by decide)⟩

/-- **C9.** A chunk whose `section` field is present but consists only of
whitespace is treated as having no section: the embedding input is the chunk's
text alone, and in particular differs from the whitespace section joined with
a double newline. -/
theorem c9_whitespace_section_as_absent (s body : String) (hne : s ≠ "")
    (hws : ∀ c ∈ s.data, isPyWhitespace c) :
    embedInput (some s) body = body ∧
    embedInput (some s) body ≠ s ++ "\n\n" ++ body := by
  have hstrip : pyStrip s = "" := by
    rw [pyStrip]
    rw [List.dropWhile_eq_nil_iff.2 (fun x hx => hws x hx)]
    rfl
  have hmain : embedInput (some s) body = body := by
    rw [embedInput]
    simp [hstrip]
  refine ⟨hmain, ?_⟩
  rw [hmain]
  intro habs
  have hlen := congrArg String.length habs
  rw [String.length_append, String.length_append] at hlen
  have hspos : 0 < s.length := by
    rcases hd : s.data with - | ⟨c, cs⟩
    · exact absurd (String.ext hd) hne
    · have : s.length = s.data.length := rfl
      rw [this, hd]
      simp
  have : ("\n\n" : String).length = 2 := rfl
  omega

/-- Witness for C9 at the one-space section. -/
theorem c9_whitespace_section_as_absent_witness :
    ((" " : String) ≠ "" ∧ ∀ c ∈ (" " : String).data, isPyWhitespace c) ∧
    (embedInput (some " ") "b" = "b" ∧
      embedInput (some " ") "b" ≠ " " ++ "\n\n" ++ "b") :=
  ⟨⟨by decide, by decide⟩, c9_whitespace_section_as_absent " " "b" (by decide) (by decide)⟩

/-- **C10.** If the chunk store exists but holds zero records, the index build
fails with numpy's empty-stack error before anything is persisted: the
index/metadata file system is returned unchanged. -/
theorem c10_empty_store_fails_before_persist (emb : List String → List Vec)
    (nrm : List Vec → List Vec) (fs : IndexFS) :
    buildIndexMain emb nrm (some []) fs =
      (fs, some "need at least one array to concatenate") := by
  rw [buildIndexMain]
  have h0 : toBatches ([] : List String) = [] := (toBatches_eq_nil_iff []).2 rfl
  simp [h0, vstack]

/-- **C7.** The idealized `faiss.normalize_L2` maps every row with non-zero
Euclidean norm to that row divided pointwise by its norm (hence of unit norm),
leaves every all-zero row unchanged, and acts strictly row-wise on the matrix
(row `i` of the output is the renormalization of row `i` of the input, and no
other row influences it). -/
theorem c7_normalize_rows (v : List ℝ) (X : List (List ℝ)) :
    (euclidNorm v ≠ 0 →
      normalizeRow v = v.map (fun x => x / euclidNorm v) ∧
        euclidNorm (normalizeRow v) = 1) ∧
    ((∀ x ∈ v, x = 0) → normalizeRow v = v) ∧
    ((normalizeL2 X).length = X.length ∧
      ∀ i : Nat, (normalizeL2 X)[i]? = X[i]?.map normalizeRow) := by
  refine ⟨?_, ?_, ?_, ?_⟩
  · intro hnz
    have hnn : 0 ≤ sumSq v := sumSq_nonneg v
    have hpos : 0 < sumSq v := by
      rcases lt_or_eq_of_le hnn with hlt | heq
      · exact hlt
      · exact absurd (by rw [euclidNorm, ← heq, Real.sqrt_zero]) hnz
    have hsqrt_pos : 0 < Real.sqrt (sumSq v) := Real.sqrt_pos.2 hpos
    have hform : normalizeRow v = v.map (fun x => x * (1 / Real.sqrt (sumSq v))) := by
      rw [normalizeRow]
      simp only [hpos, if_pos]
    constructor
    · rw [hform]
      refine List.map_congr_left (fun x _ => ?_)
      rw [mul_one_div, euclidNorm]
    · rw [hform, euclidNorm, sumSq_map_mul]
      have : sumSq v * (1 / Real.sqrt (sumSq v) * (1 / Real.sqrt (sumSq v))) = 1 := by
        rw [div_mul_div_comm, one_mul, Real.mul_self_sqrt hnn]
        field_simp
      rw [this, Real.sqrt_one]
  · intro hz
    have h0 : sumSq v = 0 := by
      rw [sumSq]
      apply List.sum_eq_zero
      intro x hx
      obtain ⟨y, hy, rfl⟩ := List.mem_map.1 hx
      rw [hz y hy, mul_zero]
    rw [normalizeRow]
    simp [h0]
  · rw [normalizeL2, List.length_map]
  · intro i
    rw [normalizeL2, List.getElem?_map]

/-- Witness for C7: the row `[3, 4]` has norm 5 and is scaled to unit norm;
the all-zero row `[0, 0]` is left untouched. -/
theorem c7_normalize_rows_witness :
    (euclidNorm [(3 : ℝ), 4] ≠ 0 ∧
      (normalizeRow [(3 : ℝ), 4] =
          [(3 : ℝ), 4].map (fun x => x / euclidNorm [(3 : ℝ), 4]) ∧
        euclidNorm (normalizeRow [(3 : ℝ), 4]) = 1)) ∧
    normalizeRow [(0 : ℝ), 0] = [(0 : ℝ), 0] := by
  have hsum : sumSq [(3 : ℝ), 4] = 25 := by
    rw [sumSq]
    norm_num
  have h34 : euclidNorm [(3 : ℝ), 4] ≠ 0 := by
    rw [euclidNorm, hsum]
    rw [show (25 : ℝ) = 5 ^ 2 by norm_num, Real.sqrt_sq (by norm_num : (0:ℝ) ≤ 5)]
    norm_num
  have hz : ∀ x ∈ [(0 : ℝ), 0], x = 0 := by
    intro x hx
    rcases List.mem_cons.1 hx with rfl | hx'
    · rfl
    · simpa using hx'
  exact ⟨⟨h34, (c7_normalize_rows [(3 : ℝ), 4] []).1 h34⟩,
    (c7_normalize_rows [(0 : ℝ), 0] []).2.1 hz⟩

/-- C8 counterexample: the chunk store holds one record, the embedding service
replies with two vectors, and the run completes *successfully*, persisting an
index of two vectors against a metadata id list of length one — the claimed
fatal failure without persistence does not happen. -/
theorem c8_counterexample :
    (buildIndexMain embBadW (fun X => X) (some [chunkW]) ifsW).2 = none ∧
    (buildIndexMain embBadW (fun X => X) (some [chunkW]) ifsW).1.indexFile =
      some [[0], [0]] ∧
    (buildIndexMain embBadW (fun X => X) (some [chunkW]) ifsW).1.metaFile =
      some (["a.md::0000"], EMBED_MODEL) ∧
    ([[0], [0]] : List Vec).length ≠ (["a.md::0000"] : List String).length := by
  have htext : [chunkW].map (fun r => embedInput r.sectionPath r.text) = ["hello"] := rfl
  have hb : toBatches ["hello"] = [["hello"]] :=
    toBatches_small ["hello"] (by decide) (by norm_num [BATCH])
  rw [buildIndexMain, htext, hb]
  refine ⟨rfl, rfl, rfl, by decide⟩

/-- **C8 (amended).** Index build performs no chunk-id/vector count check:
whenever batch stacking succeeds — whatever number of vectors the embedding
calls returned — the index (the normalized stacked matrix) and the metadata
(the full id list with the model identifier) are persisted and the run
reports success. -/
theorem c8_no_length_check (emb : List String → List Vec)
    (nrm : List Vec → List Vec) (recs : List Chunk) (fs : IndexFS) (X : List Vec)
    (h : vstack ((toBatches (recs.map (fun r => embedInput r.sectionPath r.text))).map
        emb) = .ok X) :
    buildIndexMain emb nrm (some recs) fs =
      ({ indexFile := some (nrm X)
         metaFile := some (recs.map Chunk.id, EMBED_MODEL) }, none) := by
  rw [buildIndexMain, h]

/-- Witness for C8 (amended): the misbehaving embedder's stack succeeds with
two rows and both files are persisted. -/
theorem c8_no_length_check_witness :
    vstack ((toBatches ([chunkW].map (fun r =>
        embedInput r.sectionPath r.text))).map embBadW) = .ok [[0], [0]] ∧
    buildIndexMain embBadW (fun X => X) (some [chunkW]) ifsW =
      ({ indexFile := some [[0], [0]]
         metaFile := some ([chunkW].map Chunk.id, EMBED_MODEL) }, none) := by
  have htext : [chunkW].map (fun r => embedInput r.sectionPath r.text) = ["hello"] := rfl
  have hb : toBatches ["hello"] = [["hello"]] :=
    toBatches_small ["hello"] (by decide) (by norm_num [BATCH])
  have hvs : vstack ((toBatches ([chunkW].map (fun r =>
      embedInput r.sectionPath r.text))).map embBadW) = .ok [[0], [0]] := by
    rw [htext, hb]
    rfl
  exact ⟨hvs, c8_no_length_check embBadW (fun X => X) [chunkW] ifsW [[0], [0]] hvs⟩

end DocsRag
